import Mathlib

/-!
Verification of `trtm_process/gen_obj.py`: a shallow embedding of the
edge-to-face reconstruction pipeline (load vertices and edges, reconstruct
triangular faces from pairwise edge adjacency, write an OBJ-style mesh),
together with proofs of its specified properties.

Modelling conventions:
* Python `int` is `ℤ`; Python `float` coordinates are modelled as `ℚ`
  (coordinates are only parsed and re-emitted, never computed with,
  so any value type with decidable equality is faithful).
* An input token is `Option ℚ` (resp. `Option ℤ`): `none` stands for a
  token on which Python's `float(...)` (resp. `int(...)`) raises, `some q`
  for a token parsing to `q`.  A raised exception is `Option.none` of the
  surrounding computation.
* A written OBJ record is an `ObjLine` (`v x y z` or `f i1 i2 i3`),
  abstracting the textual formatting of numbers.
-/

namespace GenObj

/-- `set(edges[i]) & set(edges[j])` from the source: the intersection of the
endpoint sets of two edges, as a duplicate-free list.  Only its length and
(when it is a singleton) its unique element are ever used by the pipeline,
so the order of this list is irrelevant downstream. -/
def sharedVertices (e1 e2 : List ℤ) : List ℤ :=
  (e1.dedup).filter (fun v => v ∈ e2)

/-- The body of the inner loop of `find_faces`: given `edges[i]` and
`edges[j]`, if the two edges share exactly one vertex, emit the face
`list(edges[i] + edges[j])` with the first occurrence of the shared vertex
removed (`face.remove(shared_vertices.pop())`); otherwise emit nothing. -/
def facePair (e1 e2 : List ℤ) : Option (List ℤ) :=
  let s := sharedVertices e1 e2
  if s.length = 1 then some ((e1 ++ e2).erase s.headI) else none

/-- `find_faces(edges)` from the source: the nested loop
`for i in range(len(edges)): for j in range(i+1, len(edges))`, collecting
the emitted faces in loop order. -/
def find_faces (edges : List (List ℤ)) : List (List ℤ) :=
  (List.range edges.length).flatMap fun i =>
    (List.range' (i + 1) (edges.length - (i + 1))).filterMap fun j =>
      facePair (edges.getD i []) (edges.getD j [])

/-- Structural-recursion form of the nested loop: the head edge is paired
with every later edge in order, then the tail is processed. -/
def facesRec : List (List ℤ) → List (List ℤ)
  | [] => []
  | e :: rest => rest.filterMap (facePair e) ++ facesRec rest

/-- An edge record as the data model describes it: a pair of two distinct
vertex indices, stored as a two-element list. -/
def IsEdge (e : List ℤ) : Prop := ∃ a b : ℤ, a ≠ b ∧ e = [a, b]

/-- `list(map(float, line.strip().split()))` (resp. `map(int, ...)`) from the
source: the tokens of one line are converted left to right; the first token
on which the conversion raises aborts the whole line with an exception
(`none`).  No arity check of any kind is performed. -/
def parseTokens {α : Type} : List (Option α) → Option (List α)
  | [] => some []
  | none :: _ => none
  | some x :: ts =>
    match parseTokens ts with
    | none => none
    | some xs => some (x :: xs)

/-- The `for line in f: ....append(...)` loading loop of the source: every
line is parsed in input order; the first failing line aborts the run with
an exception (`none`), so no partial vertex/edge list is ever returned. -/
def loadLines {α : Type} : List (List (Option α)) → Option (List (List α))
  | [] => some []
  | l :: ls =>
    match parseTokens l with
    | none => none
    | some v =>
      match loadLines ls with
      | none => none
      | some vs => some (v :: vs)

/-- One written OBJ record, abstracting the textual number formatting:
`v x y z` or `f i1 i2 i3`. -/
inductive ObjLine : Type
  | v (x y z : ℚ)
  | f (i1 i2 i3 : ℤ)
deriving DecidableEq

/-- `f.write('v {} {} {}\n'.format(v[0], v[1], v[2]))` for one vertex:
the first three components are emitted; a vertex with fewer than three
components raises `IndexError` (`none`).  Components past the third are
silently ignored. -/
def vertexRecord (vtx : List ℚ) : Option ObjLine := do
  let x ← vtx[0]?
  let y ← vtx[1]?
  let z ← vtx[2]?
  pure (ObjLine.v x y z)

/-- `f.write('f {} {} {}\n'.format(face[0]+1, face[1]+1, face[2]+1))` for
one face: the first three indices are emitted, each incremented by one
(0-based to 1-based); a shorter face raises `IndexError` (`none`). -/
def faceRecord (face : List ℤ) : Option ObjLine := do
  let i1 ← face[0]?
  let i2 ← face[1]?
  let i3 ← face[2]?
  pure (ObjLine.f (i1 + 1) (i2 + 1) (i3 + 1))

/-- A writing loop of `write_obj`: records are produced in input order and
the first failure aborts with an exception (`none`). -/
def mapRecords {α β : Type} (g : α → Option β) : List α → Option (List β)
  | [] => some []
  | a :: l =>
    match g a with
    | none => none
    | some b =>
      match mapRecords g l with
      | none => none
      | some bs => some (b :: bs)

/-- `write_obj(vertices, faces, filename)` from the source, with the file
abstracted as the list of records written: all vertex records in input
order, then all face records in input order. -/
def write_obj (vertices : List (List ℚ)) (faces : List (List ℤ)) :
    Option (List ObjLine) :=
  match mapRecords vertexRecord vertices with
  | none => none
  | some vls =>
    match mapRecords faceRecord faces with
    | none => none
    | some fls => some (vls ++ fls)

/-- The pairs of edge positions the spec's algorithm description ranges
over: for each first index `i` in ascending order, every second index
`j > i` in ascending order. -/
def claimPairs (n : ℕ) : List (ℕ × ℕ) :=
  (List.range n).flatMap fun i =>
    ((List.range n).filter (fun j => i < j)).map fun j => (i, j)

/-- The claim's index-bounds invariant: every index of every face lies
within `[0, |vertices|)`. -/
def facesInRange (vertices : List (List ℚ)) (faces : List (List ℤ)) : Prop :=
  ∀ face ∈ faces, ∀ v ∈ face, 0 ≤ v ∧ v < (vertices.length : ℤ)

instance (vertices : List (List ℚ)) (faces : List (List ℤ)) :
    Decidable (facesInRange vertices faces) := by
  unfold facesInRange
  infer_instance

/-- Parsing a written record back as a vertex line: a `v` record yields
its three coordinates; `f` records are not vertex lines. -/
def parseVRecord : ObjLine → Option (List ℚ)
  | ObjLine.v x y z => some [x, y, z]
  | ObjLine.f _ _ _ => none

/-- Parsing a written record back as a face line, undoing the 1-based
conversion by subtracting one from each index; `v` records are not face
lines. -/
def parseFRecord : ObjLine → Option (List ℤ)
  | ObjLine.f i1 i2 i3 => some [i1 - 1, i2 - 1, i3 - 1]
  | ObjLine.v _ _ _ => none

/-- The inner-loop body with the choice made by `set.pop()` left open:
`pick` stands for whatever element the runtime's `pop` returns from the
shared-vertex set. -/
def facePairC (pick : List ℤ → ℤ) (e1 e2 : List ℤ) : Option (List ℤ) :=
  let s := sharedVertices e1 e2
  if s.length = 1 then some ((e1 ++ e2).erase (pick s)) else none

/-- `find_faces` with the `pop` choice left open. -/
def find_facesC (pick : List ℤ → ℤ) (edges : List (List ℤ)) : List (List ℤ) :=
  (List.range edges.length).flatMap fun i =>
    (List.range' (i + 1) (edges.length - (i + 1))).filterMap fun j =>
      facePairC pick (edges.getD i []) (edges.getD j [])

/-- The whole script, `pop` choice left open: load the vertex lines, load
the edge lines, reconstruct the faces, write the OBJ records.  Any
exception (`none`) anywhere aborts the run. -/
def run_gen_obj (pick : List ℤ → ℤ) (vertexLines : List (List (Option ℚ)))
    (edgeLines : List (List (Option ℤ))) : Option (List ObjLine) :=
  match loadLines vertexLines with
  | none => none
  | some vs =>
    match loadLines edgeLines with
    | none => none
    | some es => write_obj vs (find_facesC pick es)

/-! ## Theorems -/

theorem filterMap_getD {α β : Type} (l : List α) (d : α) (f : α → Option β) :
    (List.range l.length).filterMap (fun k => f (l.getD k d)) = l.filterMap f := by
  induction l with
  | nil => rfl
  | cons a l ih =>
    rw [List.length_cons, List.range_succ_eq_map, List.filterMap_cons,
      List.filterMap_map, List.filterMap_cons]
    simp only [List.getD_cons_zero]
    have h2 : ((fun k => f ((a :: l).getD k d)) ∘ Nat.succ) = fun k => f (l.getD k d) := by
      funext k
      simp [List.getD_cons_succ]
    rw [h2, ih]

theorem find_faces_nil : find_faces [] = [] := rfl

theorem find_faces_cons (e : List ℤ) (rest : List (List ℤ)) :
    find_faces (e :: rest) = rest.filterMap (facePair e) ++ find_faces rest := by
  unfold find_faces
  simp only [List.length_cons]
  rw [List.range_succ_eq_map, List.flatMap_cons, List.flatMap_map]
  congr 1
  · simp only [Nat.zero_add, Nat.add_sub_cancel, List.getD_cons_zero]
    rw [List.range'_eq_map_range, List.filterMap_map,
      ← filterMap_getD rest [] (facePair e)]
    apply List.filterMap_congr
    intro k _
    simp only [Function.comp_apply]
    rw [Nat.add_comm 1 k, List.getD_cons_succ]
  · apply List.flatMap_congr
    intro i _
    have hlen : rest.length + 1 - (Nat.succ i + 1) = rest.length - (i + 1) := by omega
    rw [hlen]
    have hget : (e :: rest).getD (Nat.succ i) [] = rest.getD i [] := List.getD_cons_succ
    rw [hget, List.range'_eq_map_range, List.filterMap_map,
      List.range'_eq_map_range, List.filterMap_map]
    apply List.filterMap_congr
    intro k _
    simp only [Function.comp_apply]
    have h3 : Nat.succ i + 1 + k = (i + 1 + k) + 1 := by omega
    rw [h3, List.getD_cons_succ]

theorem find_faces_eq_facesRec (edges : List (List ℤ)) :
    find_faces edges = facesRec edges := by
  induction edges with
  | nil => rfl
  | cons e rest ih => rw [find_faces_cons, facesRec, ih]

theorem sharedVertices_pair (a b : ℤ) (hab : a ≠ b) (e2 : List ℤ) :
    sharedVertices [a, b] e2 =
      if a ∈ e2 then (if b ∈ e2 then [a, b] else [a])
      else (if b ∈ e2 then [b] else []) := by
  have hd : ([a, b] : List ℤ).dedup = [a, b] := by
    rw [List.dedup_cons_of_not_mem (by simp [hab]),
      List.dedup_cons_of_not_mem (by simp), List.dedup_nil]
  rw [sharedVertices, hd]
  split_ifs with h1 h2 h2 <;> simp [List.filter_cons, h1, h2]

/-- Full case analysis of the inner-loop body on a pair of well-formed
edges `[a, b]` and `[c, d]`: a face is emitted exactly when one endpoint of
the first edge (and not the other) occurs in the second edge, and the face
is the concatenation of the two edges with that occurrence of the pivot in
the first edge removed. -/
theorem facePair_cases (a b c d : ℤ) (hab : a ≠ b) :
    facePair [a, b] [c, d] =
      if a = c ∨ a = d then
        (if b = c ∨ b = d then none else some [b, c, d])
      else
        (if b = c ∨ b = d then some [a, c, d] else none) := by
  rw [facePair]
  rw [sharedVertices_pair a b hab [c, d]]
  have hma : (a ∈ [c, d]) ↔ (a = c ∨ a = d) := by simp
  have hmb : (b ∈ [c, d]) ↔ (b = c ∨ b = d) := by simp
  split_ifs with h1 h2 h2 <;>
    simp_all [List.erase_cons, hab, List.headI]

theorem parseTokens_eq_none_iff {α : Type} (ts : List (Option α)) :
    parseTokens ts = none ↔ none ∈ ts := by
  induction ts with
  | nil => simp [parseTokens]
  | cons t ts ih =>
    cases t with
    | none => simp [parseTokens]
    | some x =>
      cases h : parseTokens ts with
      | none => simp [parseTokens, h, ih.mp h]
      | some xs =>
        have : ¬ (none ∈ ts) := fun hm => by
          rw [← ih] at hm
          rw [hm] at h
          exact Option.noConfusion h
        simp [parseTokens, h, this]

theorem parseTokens_map_some {α : Type} (xs : List α) :
    parseTokens (xs.map some) = some xs := by
  induction xs with
  | nil => rfl
  | cons x xs ih => simp [parseTokens, ih]

theorem loadLines_eq_none_iff {α : Type} (ls : List (List (Option α))) :
    loadLines ls = none ↔ ∃ l ∈ ls, none ∈ l := by
  induction ls with
  | nil => simp [loadLines]
  | cons l ls ih =>
    cases h : parseTokens l with
    | none =>
      have := (parseTokens_eq_none_iff l).mp h
      simp [loadLines, h]
      exact Or.inl this
    | some v =>
      have hno : ¬ (none ∈ l) := fun hm => by
        rw [← parseTokens_eq_none_iff] at hm
        rw [hm] at h
        exact Option.noConfusion h
      cases h2 : loadLines ls with
      | none => simp [loadLines, h, h2, ih.mp h2, hno]
      | some vs =>
        have : ¬ ∃ x ∈ ls, none ∈ x := fun hm => by
          rw [← ih] at hm
          rw [hm] at h2
          exact Option.noConfusion h2
        simp [loadLines, h, h2, hno, this]

theorem mapRecords_eq_map {α β : Type} (g : α → Option β) (h : α → β)
    (l : List α) (hl : ∀ a ∈ l, g a = some (h a)) :
    mapRecords g l = some (l.map h) := by
  induction l with
  | nil => rfl
  | cons a l ih =>
    have h1 : g a = some (h a) := hl a (List.mem_cons_self a l)
    have h2 : mapRecords g l = some (l.map h) :=
      ih fun x hx => hl x (List.mem_cons_of_mem a hx)
    simp [mapRecords, h1, h2]

theorem vertexRecord_eq (x y z : ℚ) (r : List ℚ) :
    vertexRecord (x :: y :: z :: r) = some (ObjLine.v x y z) := by
  simp [vertexRecord]

theorem faceRecord_eq (i1 i2 i3 : ℤ) (r : List ℤ) :
    faceRecord (i1 :: i2 :: i3 :: r) =
      some (ObjLine.f (i1 + 1) (i2 + 1) (i3 + 1)) := by
  simp [faceRecord]

theorem mem_find_faces {edges : List (List ℤ)} {face : List ℤ}
    (h : face ∈ find_faces edges) :
    ∃ e1 e2, e1 ∈ edges ∧ e2 ∈ edges ∧ facePair e1 e2 = some face := by
  rw [find_faces_eq_facesRec] at h
  induction edges with
  | nil => simp [facesRec] at h
  | cons e rest ih =>
    rw [facesRec, List.mem_append] at h
    rcases h with h | h
    · rw [List.mem_filterMap] at h
      obtain ⟨e2, he2, hp⟩ := h
      exact ⟨e, e2, List.mem_cons_self e rest, List.mem_cons_of_mem e he2, hp⟩
    · obtain ⟨e1, e2, h1, h2, hp⟩ := ih h
      exact ⟨e1, e2, List.mem_cons_of_mem e h1, List.mem_cons_of_mem e h2, hp⟩

theorem facePair_vertices {e1 e2 face : List ℤ}
    (h : facePair e1 e2 = some face) : ∀ v ∈ face, v ∈ e1 ∨ v ∈ e2 := by
  intro v hv
  rw [facePair] at h
  split_ifs at h with hc
  rw [Option.some_inj] at h
  rw [← h] at hv
  have := List.mem_of_mem_erase hv
  rw [List.mem_append] at this
  exact this

theorem filter_range_gt (i n : ℕ) :
    (List.range n).filter (fun j => i < j) = List.range' (i + 1) (n - (i + 1)) := by
  induction n with
  | zero => simp
  | succ n ih =>
    rw [List.range_succ, List.filter_append, ih]
    by_cases h : i < n
    · have hn : n + 1 - (i + 1) = (n - (i + 1)) + 1 := by omega
      rw [hn, List.range'_concat]
      have hn2 : i + 1 + 1 * (n - (i + 1)) = n := by omega
      rw [hn2]
      simp [List.filter_cons, h]
    · have hn : n + 1 - (i + 1) = 0 := by omega
      have hn2 : n - (i + 1) = 0 := by omega
      rw [hn, hn2] at *
      simp_all [List.filter_cons]

theorem mem_claimPairs (n i j : ℕ) : (i, j) ∈ claimPairs n ↔ i < j ∧ j < n := by
  simp only [claimPairs, List.mem_flatMap, List.mem_map, List.mem_filter,
    List.mem_range, Prod.mk.injEq, decide_eq_true_eq]
  constructor
  · rintro ⟨a, ha, b, ⟨hb, hab⟩, rfl, rfl⟩
    exact ⟨hab, hb⟩
  · rintro ⟨hij, hjn⟩
    exact ⟨i, by omega, j, ⟨hjn, hij⟩, rfl, rfl⟩

theorem find_faces_eq_claimPairs (edges : List (List ℤ)) :
    find_faces edges = (claimPairs edges.length).filterMap
      (fun ij => facePair (edges.getD ij.1 []) (edges.getD ij.2 [])) := by
  rw [claimPairs, List.filterMap_flatMap]
  unfold find_faces
  apply List.flatMap_congr
  intro i _
  rw [filter_range_gt, List.filterMap_map]
  rfl

theorem facePair_isSome_iff (e1 e2 : List ℤ) :
    (facePair e1 e2).isSome ↔ (sharedVertices e1 e2).length = 1 := by
  by_cases h : (sharedVertices e1 e2).length = 1 <;> simp [facePair, h]

/-- Pivot analysis of a successful inner-loop emission on well-formed
edges: the shared-vertex set is a singleton `{p}`, each edge consists of
`p` and one other endpoint, and the emitted face is a permutation of the
pivot and the two non-pivot endpoints, all three distinct. -/
theorem facePair_pivot {e1 e2 face : List ℤ} (h1 : IsEdge e1) (h2 : IsEdge e2)
    (hf : facePair e1 e2 = some face) :
    ∃ p x y, sharedVertices e1 e2 = [p] ∧
      (e1 = [p, x] ∨ e1 = [x, p]) ∧ (e2 = [p, y] ∨ e2 = [y, p]) ∧
      x ≠ p ∧ y ≠ p ∧ x ≠ y ∧ face.Perm [p, x, y] := by
  obtain ⟨a, b, hab, rfl⟩ := h1
  obtain ⟨c, d, hcd, rfl⟩ := h2
  rw [facePair_cases a b c d hab] at hf
  have hsh := sharedVertices_pair a b hab [c, d]
  have hma : (a ∈ [c, d]) ↔ (a = c ∨ a = d) := by simp
  have hmb : (b ∈ [c, d]) ↔ (b = c ∨ b = d) := by simp
  by_cases ha : a = c ∨ a = d <;> by_cases hb : b = c ∨ b = d
  · rw [if_pos ha, if_pos hb] at hf
    exact Option.noConfusion hf
  · rw [if_pos ha, if_neg hb, Option.some_inj] at hf
    subst hf
    have hshared : sharedVertices [a, b] [c, d] = [a] := by
      rw [hsh, if_pos (hma.mpr ha), if_neg (fun hm => hb (hmb.mp hm))]
    rcases ha with rfl | rfl
    · -- pivot = a = c ; face = [b, c, d] ~ [c, b, d]
      refine ⟨a, b, d, hshared, Or.inl rfl, Or.inl rfl, ?_, ?_, ?_, ?_⟩
      · exact fun h => hab h.symm
      · exact fun h => hcd h.symm
      · exact fun h => hb (Or.inr h)
      · exact List.Perm.swap a b [d]
    · -- pivot = a = d ; face = [b, c, d] ~ [d, b, c]
      refine ⟨a, b, c, hshared, Or.inl rfl, Or.inr rfl, ?_, ?_, ?_, ?_⟩
      · exact fun h => hab h.symm
      · exact fun h => hcd h
      · exact fun h => hb (Or.inl h)
      · exact (List.Perm.cons b (List.Perm.swap a c [])).trans (List.Perm.swap a b [c])
  · rw [if_neg ha, if_pos hb, Option.some_inj] at hf
    subst hf
    have hshared : sharedVertices [a, b] [c, d] = [b] := by
      rw [hsh, if_neg (fun hm => ha (hma.mp hm)), if_pos (hmb.mpr hb)]
    rcases hb with rfl | rfl
    · -- pivot = b = c ; face = [a, c, d] ~ [c, a, d]
      refine ⟨b, a, d, hshared, Or.inr rfl, Or.inl rfl, hab, ?_, ?_, ?_⟩
      · exact fun h => hcd h.symm
      · exact fun h => ha (Or.inr h)
      · exact List.Perm.swap b a [d]
    · -- pivot = b = d ; face = [a, c, d] ~ [d, a, c]
      refine ⟨b, a, c, hshared, Or.inr rfl, Or.inr rfl, hab, ?_, ?_, ?_⟩
      · exact fun h => hcd h
      · exact fun h => ha (Or.inl h)
      · exact (List.Perm.cons a (List.Perm.swap b c [])).trans (List.Perm.swap b a [c])
  · rw [if_neg ha, if_neg hb] at hf
    exact Option.noConfusion hf

theorem facePair_eq_erase {e1 e2 face : List ℤ} {p : ℤ}
    (hsh : sharedVertices e1 e2 = [p]) (hf : facePair e1 e2 = some face) :
    face = (e1 ++ e2).erase p := by
  rw [facePair, hsh] at hf
  simp only [List.length_singleton, if_pos] at hf
  rw [Option.some_inj] at hf
  rw [← hf]
  rfl

/-! ## Claim theorems -/
/-- C1: on edge lists whose entries are pairs of distinct vertex indices,
`find_faces` scans exactly the unordered pairs of distinct edge positions
`(i, j)` with `j > i`, outer index ascending then inner index ascending;
a pair emits a candidate face if and only if the two edges' endpoint sets
intersect in exactly one vertex (the pivot), and the emitted face consists
of the pivot plus the other endpoint of the first edge plus the other
endpoint of the second edge. -/
theorem c1_edge_pair_scan (edges : List (List ℤ))
    (h : ∀ e ∈ edges, IsEdge e) :
    (find_faces edges = (claimPairs edges.length).filterMap
        (fun ij => facePair (edges.getD ij.1 []) (edges.getD ij.2 [])))
    ∧ (∀ i j : ℕ, (i, j) ∈ claimPairs edges.length ↔ i < j ∧ j < edges.length)
    ∧ (∀ e1 e2 : List ℤ, (facePair e1 e2).isSome ↔ (sharedVertices e1 e2).length = 1)
    ∧ (∀ e1 e2 face, e1 ∈ edges → e2 ∈ edges → facePair e1 e2 = some face →
        ∃ p x y, sharedVertices e1 e2 = [p] ∧
          (e1 = [p, x] ∨ e1 = [x, p]) ∧ (e2 = [p, y] ∨ e2 = [y, p]) ∧
          face.Perm [p, x, y]) := by
  refine ⟨find_faces_eq_claimPairs edges, mem_claimPairs edges.length,
    facePair_isSome_iff, ?_⟩
  intro e1 e2 face he1 he2 hf
  obtain ⟨p, x, y, hsh, hx, hy, _, _, _, hperm⟩ :=
    facePair_pivot (h e1 he1) (h e2 he2) hf
  exact ⟨p, x, y, hsh, hx, hy, hperm⟩

theorem c1_edge_pair_scan_witness :
    find_faces [[0, 1], [1, 2]] = (claimPairs 2).filterMap
      (fun ij => facePair ([[0, 1], [1, 2]].getD ij.1 [])
        ([[0, 1], [1, 2]].getD ij.2 [])) :=
  (c1_edge_pair_scan [[0, 1], [1, 2]] (by
    intro e he
    simp only [List.mem_cons, List.not_mem_nil, or_false] at he
    rcases he with rfl | rfl
    · exact ⟨0, 1, by decide, rfl⟩
    · exact ⟨1, 2, by decide, rfl⟩)).1

/-- C3 counterexample: for the qualifying edge pair `[0, 1]`, `[1, 2]` the
pivot is `1` and the non-pivot endpoints in scan order are `0` then `2`,
so the claimed winding order would be `[1, 0, 2]`; the code emits
`[0, 1, 2]`, which does not place the pivot first. -/
theorem c3_counterexample :
    sharedVertices [0, 1] [1, 2] = [1]
    ∧ facePair [0, 1] [1, 2] = some [0, 1, 2]
    ∧ ([0, 1, 2] : List ℤ) ≠ [1, 0, 2] := by decide

/-- C3 (amended): for every qualifying pair of well-formed edges, the
emitted face places the non-pivot endpoint of the first edge first,
followed by the two endpoints of the second edge in their stored order;
the pivot is never placed first. -/
theorem c3_amended (a b c d : ℤ) (hab : a ≠ b) (_hcd : c ≠ d)
    (face : List ℤ) (hf : facePair [a, b] [c, d] = some face) :
    ∃ p x, sharedVertices [a, b] [c, d] = [p] ∧
      ((p = a ∧ x = b) ∨ (p = b ∧ x = a)) ∧
      face = [x, c, d] ∧ x ≠ p := by
  rw [facePair_cases a b c d hab] at hf
  have hsh := sharedVertices_pair a b hab [c, d]
  by_cases ha : a = c ∨ a = d <;> by_cases hb : b = c ∨ b = d
  · rw [if_pos ha, if_pos hb] at hf
    exact Option.noConfusion hf
  · rw [if_pos ha, if_neg hb, Option.some_inj] at hf
    refine ⟨a, b, ?_, Or.inl ⟨rfl, rfl⟩, hf.symm, fun h => hab h.symm⟩
    rw [hsh, if_pos (by simpa using ha), if_neg (by simpa using hb)]
  · rw [if_neg ha, if_pos hb, Option.some_inj] at hf
    refine ⟨b, a, ?_, Or.inr ⟨rfl, rfl⟩, hf.symm, hab⟩
    rw [hsh, if_neg (by simpa using ha), if_pos (by simpa using hb)]
  · rw [if_neg ha, if_neg hb] at hf
    exact Option.noConfusion hf

theorem c3_amended_witness :
    ∃ p x : ℤ, sharedVertices [0, 1] [1, 2] = [p] ∧
      ((p = 0 ∧ x = 1) ∨ (p = 1 ∧ x = 0)) ∧
      ([0, 1, 2] : List ℤ) = [x, 1, 2] ∧ x ≠ p :=
  c3_amended 0 1 1 2 (by decide) (by decide) [0, 1, 2] (by decide)

/-- C10: for every qualifying pair of well-formed edges, the emitted face
is exactly the four-element concatenation of the two edges with the first
occurrence of the pivot removed: it has exactly three entries, contains
the pivot exactly once and the non-pivot endpoint of each edge exactly
once, and its vertex set equals the union of the two edges' endpoint
sets. -/
theorem c10_face_shape (e1 e2 face : List ℤ)
    (h1 : IsEdge e1) (h2 : IsEdge e2) (hf : facePair e1 e2 = some face) :
    ∃ p, sharedVertices e1 e2 = [p] ∧
      face = (e1 ++ e2).erase p ∧
      face.length = 3 ∧
      face.count p = 1 ∧
      (∀ x, x ∈ e1 → x ≠ p → face.count x = 1) ∧
      (∀ y, y ∈ e2 → y ≠ p → face.count y = 1) ∧
      face.toFinset = e1.toFinset ∪ e2.toFinset := by
  obtain ⟨p, x, y, hsh, hx, hy, hxp, hyp, hxy, hperm⟩ := facePair_pivot h1 h2 hf
  refine ⟨p, hsh, facePair_eq_erase hsh hf, ?_, ?_, ?_, ?_, ?_⟩
  · rw [hperm.length_eq]
    rfl
  · rw [hperm.count_eq]
    simp [List.count_cons, Ne.symm hxp, Ne.symm hyp]
  · intro x' hx' hxp'
    have hx'x : x' = x := by
      rcases hx with rfl | rfl <;> simp at hx' <;> tauto
    subst hx'x
    rw [hperm.count_eq]
    simp [List.count_cons, hxp, hxy]
  · intro y' hy' hyp'
    have hy'y : y' = y := by
      rcases hy with rfl | rfl <;> simp at hy' <;> tauto
    subst hy'y
    rw [hperm.count_eq]
    simp [List.count_cons, hyp, Ne.symm hxy]
  · ext v
    simp only [List.mem_toFinset, Finset.mem_union, hperm.mem_iff]
    rcases hx with rfl | rfl <;> rcases hy with rfl | rfl <;> simp <;> tauto

/-- C2 counterexample: with a single vertex and the edge list
`[[0, 5], [5, 1]]` (whose endpoints are not restricted to the vertex
range), the reconstructor emits the face `[0, 5, 1]`, whose indices `5`
and `1` lie outside `[0, 1)`. -/
theorem c2_counterexample :
    find_faces [[0, 5], [5, 1]] = [[0, 5, 1]]
    ∧ ¬ facesInRange [[0, 0, 0]] (find_faces [[0, 5], [5, 1]]) := by decide

/-- C2 (amended): if every endpoint of every edge lies within
`[0, |vertices|)`, then every face index emitted by the reconstructor lies
within `[0, |vertices|)`.  The unconditional claim fails because the code
never checks edge endpoints against the vertex range. -/
theorem c2_amended (vertices : List (List ℚ)) (edges : List (List ℤ))
    (h : ∀ e ∈ edges, ∀ v ∈ e, 0 ≤ v ∧ v < (vertices.length : ℤ)) :
    facesInRange vertices (find_faces edges) := by
  intro face hface v hv
  obtain ⟨e1, e2, he1, he2, hp⟩ := mem_find_faces hface
  rcases facePair_vertices hp v hv with h1 | h1
  · exact h e1 he1 v h1
  · exact h e2 he2 v h1

theorem c2_amended_witness :
    facesInRange [[0, 0, 0], [1, 0, 0], [0, 1, 0]] (find_faces [[0, 1], [1, 2]]) :=
  c2_amended [[0, 0, 0], [1, 0, 0], [0, 1, 0]] [[0, 1], [1, 2]] (by decide)

/-- C4 counterexample: a vertex line holding only two well-formed floats
does not have the expected arity of three, yet the loader accepts it — no
parse failure occurs and the malformed-arity record is passed through. -/
theorem c4_counterexample :
    parseTokens ([some 1, some 2] : List (Option ℚ)) = some [1, 2]
    ∧ ([some 1, some 2] : List (Option ℚ)).length ≠ 3
    ∧ loadLines ([[some 1, some 2]] : List (List (Option ℚ))) = some [[1, 2]] := by
  refine ⟨rfl, by decide, rfl⟩

/-- C4 (amended): the loader fails if and only if some token of some line
fails its numeric conversion (`float`/`int` raising); the failure aborts
the run with no partial output.  Arity is never validated: a line of any
length whose tokens all convert is accepted in full. -/
theorem c4_amended (vls : List (List (Option ℚ))) (els : List (List (Option ℤ))) :
    (loadLines vls = none ↔ ∃ l ∈ vls, none ∈ l)
    ∧ (loadLines els = none ↔ ∃ l ∈ els, none ∈ l)
    ∧ (∀ xs : List ℚ, parseTokens (xs.map some) = some xs)
    ∧ (∀ xs : List ℤ, parseTokens (xs.map some) = some xs) :=
  ⟨loadLines_eq_none_iff vls, loadLines_eq_none_iff els,
    parseTokens_map_some, parseTokens_map_some⟩

theorem star_shared (hub x y : ℤ) (hx : x ≠ hub) (hy : y ≠ hub) (hxy : x ≠ y)
    (e1 e2 : List ℤ) (h1 : e1 = [hub, x] ∨ e1 = [x, hub])
    (h2 : e2 = [hub, y] ∨ e2 = [y, hub]) :
    sharedVertices e1 e2 = [hub] := by
  rcases h1 with rfl | rfl <;> rcases h2 with rfl | rfl
  · rw [sharedVertices_pair hub x (Ne.symm hx)]
    simp [hx, hxy]
  · rw [sharedVertices_pair hub x (Ne.symm hx)]
    simp [hx, hxy]
  · rw [sharedVertices_pair x hub hx]
    simp [hx, hxy, Ne.symm hy]
  · rw [sharedVertices_pair x hub hx]
    simp [hx, hxy, Ne.symm hy]

theorem facesRec_length (edges : List (List ℤ))
    (h : edges.Pairwise (fun e1 e2 => (facePair e1 e2).isSome)) :
    (facesRec edges).length = edges.length.choose 2 := by
  induction edges with
  | nil => rfl
  | cons e rest ih =>
    rw [List.pairwise_cons] at h
    rw [facesRec, List.length_append, List.filterMap_length_eq_length.mpr h.1,
      ih h.2, List.length_cons]
    have h2 : (rest.length + 1).choose 2 = rest.length.choose 1 + rest.length.choose 2 :=
      Nat.choose_succ_succ rest.length 1
    rw [h2, Nat.choose_one_right]

/-- C5: a star of `k` edges through one hub vertex, with pairwise distinct
non-hub endpoints all different from the hub, makes every one of the
`C(k, 2)` edge pairs qualify, so exactly `k.choose 2` candidate faces are
emitted. -/
theorem c5_star (hub : ℤ) (edges : List (List ℤ))
    (hstar : ∀ e ∈ edges, ∃ x, x ≠ hub ∧ (e = [hub, x] ∨ e = [x, hub]))
    (hdist : edges.Pairwise (fun e1 e2 => ∀ v, v ∈ e1 → v ∈ e2 → v = hub)) :
    (find_faces edges).length = edges.length.choose 2 := by
  rw [find_faces_eq_facesRec]
  apply facesRec_length
  refine hdist.imp_of_mem ?_
  intro e1 e2 he1 he2 hshared
  obtain ⟨x, hx, hxe⟩ := hstar e1 he1
  obtain ⟨y, hy, hye⟩ := hstar e2 he2
  have hx1 : x ∈ e1 := by rcases hxe with rfl | rfl <;> simp
  have hy2 : y ∈ e2 := by rcases hye with rfl | rfl <;> simp
  have hxy : x ≠ y := by
    intro heq
    subst heq
    exact hx (hshared x hx1 hy2)
  rw [facePair_isSome_iff, star_shared hub x y hx hy hxy e1 e2 hxe hye]
  rfl

theorem c5_star_witness :
    (find_faces [[0, 1], [2, 0], [0, 3]]).length = Nat.choose 3 2 :=
  c5_star 0 [[0, 1], [2, 0], [0, 3]]
    (by
      intro e he
      simp only [List.mem_cons, List.not_mem_nil, or_false] at he
      rcases he with rfl | rfl | rfl
      · exact ⟨1, by decide, Or.inl rfl⟩
      · exact ⟨2, by decide, Or.inr rfl⟩
      · exact ⟨3, by decide, Or.inl rfl⟩)
    (by decide)

theorem c10_face_shape_witness :
    ∃ p, sharedVertices [3, 4] [4, 7] = [p] ∧
      ([3, 4, 7] : List ℤ) = (([3, 4] : List ℤ) ++ [4, 7]).erase p ∧
      ([3, 4, 7] : List ℤ).length = 3 ∧
      ([3, 4, 7] : List ℤ).count p = 1 ∧
      (∀ x, x ∈ ([3, 4] : List ℤ) → x ≠ p → ([3, 4, 7] : List ℤ).count x = 1) ∧
      (∀ y, y ∈ ([4, 7] : List ℤ) → y ≠ p → ([3, 4, 7] : List ℤ).count y = 1) ∧
      ([3, 4, 7] : List ℤ).toFinset = ([3, 4] : List ℤ).toFinset ∪ ([4, 7] : List ℤ).toFinset :=
  c10_face_shape [3, 4] [4, 7] [3, 4, 7]
    ⟨3, 4, by decide, rfl⟩ ⟨4, 7, by decide, rfl⟩ (by decide)

theorem exists_three {α : Type} (v : List α) (h : 3 ≤ v.length) :
    ∃ x y z r, v = x :: y :: z :: r := by
  match v with
  | x :: y :: z :: r => exact ⟨x, y, z, r, rfl⟩
  | [] => simp at h
  | [_] => simp at h
  | [_, _] => simp at h

theorem vertexRecord_getD (v : List ℚ) (h : 3 ≤ v.length) :
    vertexRecord v = some (ObjLine.v (v.getD 0 0) (v.getD 1 0) (v.getD 2 0)) := by
  obtain ⟨x, y, z, r, rfl⟩ := exists_three v h
  rw [vertexRecord_eq]
  rfl

theorem faceRecord_getD (fc : List ℤ) (h : 3 ≤ fc.length) :
    faceRecord fc = some (ObjLine.f (fc.getD 0 0 + 1) (fc.getD 1 0 + 1) (fc.getD 2 0 + 1)) := by
  obtain ⟨x, y, z, r, rfl⟩ := exists_three fc h
  rw [faceRecord_eq]
  rfl

/-- The writer on well-formed input: one `v` record per vertex in input
order, then one `f` record per face in input order with every index
incremented by one; no validation or deduplication of any kind. -/
theorem write_obj_eq (vertices : List (List ℚ)) (faces : List (List ℤ))
    (hv : ∀ v ∈ vertices, 3 ≤ v.length) (hf : ∀ fc ∈ faces, 3 ≤ fc.length) :
    write_obj vertices faces = some
      ((vertices.map fun v => ObjLine.v (v.getD 0 0) (v.getD 1 0) (v.getD 2 0))
        ++ (faces.map fun fc =>
              ObjLine.f (fc.getD 0 0 + 1) (fc.getD 1 0 + 1) (fc.getD 2 0 + 1))) := by
  have h1 : mapRecords vertexRecord vertices =
      some (vertices.map fun v => ObjLine.v (v.getD 0 0) (v.getD 1 0) (v.getD 2 0)) :=
    mapRecords_eq_map _ _ _ (fun v hv2 => vertexRecord_getD v (hv v hv2))
  have h2 : mapRecords faceRecord faces =
      some (faces.map fun fc =>
        ObjLine.f (fc.getD 0 0 + 1) (fc.getD 1 0 + 1) (fc.getD 2 0 + 1)) :=
    mapRecords_eq_map _ _ _ (fun fc hf2 => faceRecord_getD fc (hf fc hf2))
  rw [write_obj, h1, h2]

/-- All faces produced from well-formed edges have exactly three
entries. -/
theorem find_faces_shape (edges : List (List ℤ)) (he : ∀ e ∈ edges, IsEdge e) :
    ∀ face ∈ find_faces edges, face.length = 3 := by
  intro face hface
  obtain ⟨e1, e2, he1, he2, hp⟩ := mem_find_faces hface
  obtain ⟨p, x, y, _, _, _, _, _, _, hperm⟩ :=
    facePair_pivot (he e1 he1) (he e2 he2) hp
  rw [hperm.length_eq]
  rfl

theorem filterMap_eq_self {α : Type} (l : List α) (g : α → Option α)
    (h : ∀ a ∈ l, g a = some a) : l.filterMap g = l := by
  induction l with
  | nil => rfl
  | cons a l ih =>
    rw [List.filterMap_cons_some (h a (List.mem_cons_self a l)),
      ih fun x hx => h x (List.mem_cons_of_mem a hx)]

/-- C6: on the concrete triangle input, the pipeline emits exactly three
face records, each a permutation of `{0, 1, 2}`; the writer output is the
three vertex records unchanged followed by the three face records, whose
1-based index triples all resolve to the same vertex set `{1, 2, 3}`. -/
theorem c6_triangle :
    find_faces [[0, 1], [1, 2], [2, 0]] = [[0, 1, 2], [1, 2, 0], [1, 2, 0]]
    ∧ (∀ face ∈ find_faces [[0, 1], [1, 2], [2, 0]], face.Perm [0, 1, 2])
    ∧ write_obj [[0, 0, 0], [1, 0, 0], [0, 1, 0]] (find_faces [[0, 1], [1, 2], [2, 0]])
        = some [ObjLine.v 0 0 0, ObjLine.v 1 0 0, ObjLine.v 0 1 0,
                ObjLine.f 1 2 3, ObjLine.f 2 3 1, ObjLine.f 2 3 1]
    ∧ (∀ face ∈ find_faces [[0, 1], [1, 2], [2, 0]],
        (face.map (· + 1)).Perm [1, 2, 3]) := by
  refine ⟨by decide, by decide, ?_, by decide⟩
  decide

/-- C7: the writer emits one `v` record per vertex followed by one `f`
record per face, converting each 0-based face index to 1-based by adding
exactly one, in input order, with no validation or deduplication —
out-of-range face indices are written uncaught. -/
theorem c7_writer (vertices : List (List ℚ)) (faces : List (List ℤ))
    (hv : ∀ v ∈ vertices, 3 ≤ v.length) (hf : ∀ fc ∈ faces, 3 ≤ fc.length) :
    write_obj vertices faces = some
      ((vertices.map fun v => ObjLine.v (v.getD 0 0) (v.getD 1 0) (v.getD 2 0))
        ++ (faces.map fun fc =>
              ObjLine.f (fc.getD 0 0 + 1) (fc.getD 1 0 + 1) (fc.getD 2 0 + 1))) :=
  write_obj_eq vertices faces hv hf

theorem c7_writer_witness :
    write_obj [[1, 2, 3]] [[5, 6, 7]] = some
      (([[1, 2, 3]].map fun v => ObjLine.v (v.getD 0 0) (v.getD 1 0) (v.getD 2 0))
        ++ ([[5, 6, 7]].map fun fc =>
              ObjLine.f (fc.getD 0 0 + 1) (fc.getD 1 0 + 1) (fc.getD 2 0 + 1))) :=
  c7_writer [[1, 2, 3]] [[5, 6, 7]] (by decide) (by decide)

/-- C8: for vertices of exactly three coordinates and well-formed edges,
the writer succeeds, parsing its output `v` records back reproduces the
vertex sequence exactly, and parsing its output `f` records back (after
subtracting one from each index) reproduces exactly the face sequence
produced by the reconstructor. -/
theorem c8_roundtrip (vertices : List (List ℚ)) (edges : List (List ℤ))
    (hv : ∀ v ∈ vertices, v.length = 3) (he : ∀ e ∈ edges, IsEdge e) :
    ∃ out, write_obj vertices (find_faces edges) = some out
      ∧ out.filterMap parseVRecord = vertices
      ∧ out.filterMap parseFRecord = find_faces edges := by
  have hv3 : ∀ v ∈ vertices, 3 ≤ v.length := fun v hv2 => (hv v hv2).symm.le
  have hf3 : ∀ fc ∈ find_faces edges, 3 ≤ fc.length :=
    fun fc hfc => (find_faces_shape edges he fc hfc).symm.le
  refine ⟨_, write_obj_eq vertices (find_faces edges) hv3 hf3, ?_, ?_⟩
  · rw [List.filterMap_append]
    rw [List.filterMap_map, List.filterMap_map]
    have hA : vertices.filterMap
        ((fun l => parseVRecord l) ∘ fun v => ObjLine.v (v.getD 0 0) (v.getD 1 0) (v.getD 2 0))
        = vertices := by
      apply filterMap_eq_self
      intro v hv2
      obtain ⟨x, y, z, r, rfl⟩ := exists_three v ((hv v hv2).symm.le)
      have : r = [] := by
        have := hv _ hv2
        simp at this
        exact this
      subst this
      rfl
    have hB : (find_faces edges).filterMap
        ((fun l => parseVRecord l) ∘ fun fc =>
          ObjLine.f (fc.getD 0 0 + 1) (fc.getD 1 0 + 1) (fc.getD 2 0 + 1))
        = [] := by
      rw [List.filterMap_eq_nil_iff]
      intro fc _
      rfl
    rw [hA, hB, List.append_nil]
  · rw [List.filterMap_append]
    rw [List.filterMap_map, List.filterMap_map]
    have hA : vertices.filterMap
        ((fun l => parseFRecord l) ∘ fun v => ObjLine.v (v.getD 0 0) (v.getD 1 0) (v.getD 2 0))
        = [] := by
      rw [List.filterMap_eq_nil_iff]
      intro v _
      rfl
    have hB : (find_faces edges).filterMap
        ((fun l => parseFRecord l) ∘ fun fc =>
          ObjLine.f (fc.getD 0 0 + 1) (fc.getD 1 0 + 1) (fc.getD 2 0 + 1))
        = find_faces edges := by
      apply filterMap_eq_self
      intro fc hfc
      obtain ⟨x, y, z, r, rfl⟩ := exists_three fc (hf3 fc hfc)
      have : r = [] := by
        have := find_faces_shape edges he _ hfc
        simp at this
        exact this
      subst this
      simp [parseFRecord, Function.comp]
    rw [hA, hB, List.nil_append]

theorem c8_roundtrip_witness :
    ∃ out, write_obj [[1, 0, 0], [0, 2, 0], [0, 0, 3]]
        (find_faces [[0, 1], [1, 2]]) = some out
      ∧ out.filterMap parseVRecord = [[1, 0, 0], [0, 2, 0], [0, 0, 3]]
      ∧ out.filterMap parseFRecord = find_faces [[0, 1], [1, 2]] :=
  c8_roundtrip [[1, 0, 0], [0, 2, 0], [0, 0, 3]] [[0, 1], [1, 2]]
    (by decide)
    (by
      intro e he
      simp only [List.mem_cons, List.not_mem_nil, or_false] at he
      rcases he with rfl | rfl
      · exact ⟨0, 1, by decide, rfl⟩
      · exact ⟨1, 2, by decide, rfl⟩)

theorem facePairC_eq (pick : List ℤ → ℤ)
    (hpick : ∀ s : List ℤ, s.length = 1 → pick s ∈ s) :
    facePairC pick = facePair := by
  funext e1 e2
  simp only [facePairC, facePair]
  by_cases h : (sharedVertices e1 e2).length = 1
  · rw [if_pos h, if_pos h]
    obtain ⟨a, ha⟩ := List.length_eq_one.mp h
    have hm := hpick _ h
    rw [ha] at hm ⊢
    simp only [List.mem_singleton] at hm
    rw [hm]
    rfl
  · rw [if_neg h, if_neg h]

theorem find_facesC_eq (pick : List ℤ → ℤ)
    (hpick : ∀ s : List ℤ, s.length = 1 → pick s ∈ s) (edges : List (List ℤ)) :
    find_facesC pick edges = find_faces edges := by
  unfold find_facesC find_faces
  rw [facePairC_eq pick hpick]

/-- C9: the pipeline is deterministic — the only runtime-dependent
primitive in the script is `set.pop()`, and it is only ever applied to a
one-element set, so two runs of Load → Reconstruct → Write on the same
input lines produce identical output records, whatever elements the two
runs' `pop` calls return. -/
theorem c9_determinism (pick1 pick2 : List ℤ → ℤ)
    (h1 : ∀ s : List ℤ, s.length = 1 → pick1 s ∈ s)
    (h2 : ∀ s : List ℤ, s.length = 1 → pick2 s ∈ s)
    (vertexLines : List (List (Option ℚ))) (edgeLines : List (List (Option ℤ))) :
    run_gen_obj pick1 vertexLines edgeLines = run_gen_obj pick2 vertexLines edgeLines := by
  unfold run_gen_obj
  simp only [find_facesC_eq pick1 h1, find_facesC_eq pick2 h2]

theorem c9_determinism_witness :
    run_gen_obj (fun l => l.headI)
      [[some 0, some 0, some 0], [some 1, some 0, some 0], [some 0, some 1, some 0]]
      [[some 0, some 1], [some 1, some 2]]
    = run_gen_obj (fun l => l.getLastD 0)
      [[some 0, some 0, some 0], [some 1, some 0, some 0], [some 0, some 1, some 0]]
      [[some 0, some 1], [some 1, some 2]] :=
  c9_determinism (fun l => l.headI) (fun l => l.getLastD 0)
    (by
      intro s hs
      obtain ⟨a, rfl⟩ := List.length_eq_one.mp hs
      simp)
    (by
      intro s hs
      obtain ⟨a, rfl⟩ := List.length_eq_one.mp hs
      simp)
    [[some 0, some 0, some 0], [some 1, some 0, some 0], [some 0, some 1, some 0]]
    [[some 0, some 1], [some 1, some 2]]

end GenObj
